import Mathlib

/-!
Verification development for the LEI Research Assistant repository.

The Python sources are shallowly embedded as Lean definitions:

* `normalizeName` embeds `LEILookup._normalize_name` (lei_lookup.py), including
  the exact left-to-right, non-overlapping semantics of `re.sub` on the sixteen
  word-boundary-anchored suffix patterns.
* `findMatchingRecord` embeds `LEILookup._find_matching_record`.
* `findLei` embeds `LEILookup.find_lei`, with the two network adapters modelled
  as oracle functions inside an `Env`; a raised Python exception is modelled as
  `Except.error` carrying `str(exception)`, and the sequence of adapter calls is
  returned as an explicit trace.
* `getLeiByCompanyName` embeds the input-validation and request-building part of
  `GLEIFClient.get_lei_by_company_name` (gleif_service.py), with HTTP transport
  and JSON parsing abstracted as an oracle producing already-parsed records.
* `geminiAttempts` embeds the retry loop of
  `GeminiService.verify_company_name_from_website` (gemini_service.py), and
  `extractRetryDelay` embeds `GeminiService._extract_retry_delay`; the sleeps
  performed between attempts are returned as a trace of delay values.

Characters are modelled over the ASCII fragment: `isWordChar` models the regex
class `\w`, `isPySpace` models Python whitespace, and `Char.toLower` models
`str.lower`, all of which agree with Python on ASCII input.
-/

/-- ASCII model of the Python regex word-character class `\w`, i.e. `[A-Za-z0-9_]`
(code points 65-90, 97-122, 48-57 and 95). -/
def isWordChar (c : Char) : Bool :=
  (65 ≤ c.toNat && c.toNat ≤ 90) || (97 ≤ c.toNat && c.toNat ≤ 122) ||
    (48 ≤ c.toNat && c.toNat ≤ 57) || c.toNat == 95

/-- ASCII model of the Python whitespace class used by `str.split`, `str.strip` and
`\s`: space, tab, newline, carriage return, vertical tab, form feed. -/
def isPySpace (c : Char) : Bool :=
  c.toNat == 32 || c.toNat == 9 || c.toNat == 10 || c.toNat == 13 ||
    c.toNat == 11 || c.toNat == 12

/-- Python `str.lower` on one character (ASCII): map A-Z to a-z, the same mapping
as `Char.toLower`. -/
def pyLower (c : Char) : Char :=
  if 65 ≤ c.toNat ∧ c.toNat ≤ 90 then Char.ofNat (c.toNat + 32) else c

/-- A single-quote character, used when building message strings. -/
def sglq : String := String.mk [Char.ofNat 39]

/-- Match a literal character sequence at the front of a list, returning the remainder. -/
def stripLits : List Char → List Char → Option (List Char)
  | [], l => some l
  | _ :: _, [] => none
  | c :: cs, d :: l => if d == c then stripLits cs l else none

/-- One suffix pattern of `_normalize_name`: a literal body between two `\b`
word boundaries, optionally followed by `\.?`. -/
structure SuffixPat where
  lits : List Char
  optDot : Bool
deriving DecidableEq

/-- Whether the first character of a list is a word character (`false` for `[]`,
matching the regex convention that the string edge is a non-word position). -/
def headIsWord : List Char → Bool
  | [] => false
  | c :: _ => isWordChar c

/-- Whether the character preceding the current scan position is a word character. -/
def prevIsWord : Option Char → Bool
  | none => false
  | some c => isWordChar c

/-- The regex word boundary `\b`: the previous and next positions disagree on wordness. -/
def boundaryB (p : Option Char) (l : List Char) : Bool := prevIsWord p != headIsWord l

/-- The tail of a pattern match after the literal body has been consumed: the
greedy optional `\.?` (consumed only when the boundary after the dot holds,
else the match backtracks to the bare literal) followed by the closing `\b`.
Returns the last matched character and the remainder of the input. -/
def matchTail (pat : SuffixPat) (r : List Char) : Option (Char × List Char) :=
  if pat.optDot then
    match r with
    | r0 :: rest2 =>
      if r0 = '.' then
        if boundaryB (some '.') rest2 then some ('.', rest2)
        else if boundaryB (some (pat.lits.getLastD ' ')) r then
          some (pat.lits.getLastD ' ', r)
        else none
      else if boundaryB (some (pat.lits.getLastD ' ')) r then
        some (pat.lits.getLastD ' ', r)
      else none
    | [] =>
      if boundaryB (some (pat.lits.getLastD ' ')) r then some (pat.lits.getLastD ' ', r)
      else none
  else
    if boundaryB (some (pat.lits.getLastD ' ')) r then some (pat.lits.getLastD ' ', r)
    else none

/-- Attempt to match `\b lits \.? \b` (or `\b lits \b` when `optDot = false`) at the
current position, given the preceding character `p`, exactly as `re.sub` does. -/
def matchPat (pat : SuffixPat) (p : Option Char) (l : List Char) : Option (Char × List Char) :=
  if pat.lits.isEmpty then none
  else if boundaryB p l then (stripLits pat.lits l).bind (matchTail pat)
  else none

/-- Left-to-right, non-overlapping global substitution of `pat` by the empty string,
as performed by `re.sub(pat, '', s)`.  `fuel` bounds the scan; `reSub` supplies
fuel equal to the input length, which always suffices because a match consumes at
least one character. -/
def reSubAux (pat : SuffixPat) : Nat → Option Char → List Char → List Char
  | 0, _, l => l
  | _ + 1, _, [] => []
  | fuel + 1, p, c :: l =>
    match matchPat pat p (c :: l) with
    | some (lc, rest) => reSubAux pat fuel (some lc) rest
    | none => c :: reSubAux pat fuel (some c) l

/-- `re.sub(pat, '', l)` for one suffix pattern. -/
def reSub (pat : SuffixPat) (l : List Char) : List Char := reSubAux pat l.length none l

/-- The scan of `reSubAux` from an arbitrary state, with its canonical fuel. -/
def reSubGo (pat : SuffixPat) (p : Option Char) (l : List Char) : List Char :=
  reSubAux pat l.length p l

/-- The sixteen suffix patterns of `_normalize_name`, in source order. -/
def suffixPatterns : List SuffixPat :=
  [ ⟨"inc".data, true⟩, ⟨"incorporated".data, false⟩, ⟨"llc".data, true⟩,
    ⟨"l.l.c".data, true⟩, ⟨"ltd".data, true⟩, ⟨"limited".data, false⟩,
    ⟨"l.t.d".data, true⟩, ⟨"corp".data, true⟩, ⟨"corporation".data, false⟩,
    ⟨"gmbh".data, true⟩, ⟨"ag".data, true⟩, ⟨"sa".data, true⟩,
    ⟨"sarl".data, true⟩, ⟨"plc".data, true⟩, ⟨"co".data, true⟩,
    ⟨"company".data, false⟩ ]

/-- One step of the `str.split()` fold. -/
def splitStep (c : Char) (ws : List (List Char)) : List (List Char) :=
  if isPySpace c then [] :: ws
  else
    match ws with
    | [] => [[c]]
    | w :: rest => (c :: w) :: rest

/-- Split into whitespace-separated chunks, keeping empty chunks. -/
def splitRaw (l : List Char) : List (List Char) := l.foldr splitStep [[]]

/-- Python `str.split()` with no arguments: whitespace-separated words, no empties. -/
def pySplit (l : List Char) : List (List Char) := (splitRaw l).filter (fun w => !w.isEmpty)

/-- Python `' '.join(words)`. -/
def joinWords : List (List Char) → List Char
  | [] => []
  | [w] => w
  | w :: v :: ws => w ++ ' ' :: joinWords (v :: ws)

/-- Python `str.strip()`: drop leading and trailing whitespace. -/
def pyStrip (l : List Char) : List Char :=
  ((l.dropWhile isPySpace).reverse.dropWhile isPySpace).reverse

/-- The suffix-stripping pass of `_normalize_name`: the sixteen `re.sub` calls in order. -/
def removeSuffixes (l : List Char) : List Char :=
  suffixPatterns.foldl (fun s pat => reSub pat s) l

/-- `re.sub(r'[^\w\s]', '', s)`: remove every character that is neither a word
character nor whitespace. -/
def removePunct (l : List Char) : List Char :=
  l.filter (fun c => isWordChar c || isPySpace c)

/-- Embedding of `LEILookup._normalize_name`: lowercase, strip the suffix tokens,
strip punctuation, collapse whitespace, trim. -/
def normalizeName (s : String) : String :=
  String.mk (pyStrip (joinWords (pySplit (removePunct (removeSuffixes (s.data.map pyLower))))))

/-- Python `str.strip()` on strings. -/
def pyStripStr (s : String) : String := String.mk (pyStrip s.data)

/-- Substring containment, the Python expression `a in b` on strings
(read: `isSubstr a b = true` iff `a` occurs contiguously inside `b`). -/
def isSubstr (a b : List Char) : Bool :=
  match b with
  | [] => a.isEmpty
  | _ :: t => a.isPrefixOf b || isSubstr a t

/-- A simplified LEI record, the dictionary shape produced by
`GLEIFClient._parse_lei_records` and consumed by `LEILookup`. -/
structure LEIRecord where
  lei : String
  legal_name : String
  status : String
  country : String
  city : String
  address : String
  postal_code : String
  registration_date : String
  last_update : String
  entity_category : String
  legal_jurisdiction : String
deriving DecidableEq

/-- The loop body of `LEILookup._find_matching_record`: iterate the records in
order, skip records with a falsy (empty) `legal_name`, and return the first
record whose normalized name contains, or is contained in, the normalized
verified name. -/
def findMatchAux (ng : String) : List LEIRecord → Option LEIRecord
  | [] => none
  | r :: rs =>
    if r.legal_name = "" then findMatchAux ng rs
    else
      if isSubstr ng.data (normalizeName r.legal_name).data
          || isSubstr (normalizeName r.legal_name).data ng.data then some r
      else findMatchAux ng rs

/-- Embedding of `LEILookup._find_matching_record`. -/
def findMatchingRecord (records : List LEIRecord) (geminiName : String) : Option LEIRecord :=
  findMatchAux (normalizeName geminiName) records

/-- One grounding citation: a `{url, title}` pair from `_extract_sources`. -/
structure GroundingSource where
  url : String
  title : String
deriving DecidableEq

/-- The dictionary returned by `GeminiService.verify_company_name_from_website`, as
consumed by `find_lei` via `dict.get`: a key may be absent (`none`), in which case
`find_lei` substitutes a default (`[]` for sources, `0.0` for cost). -/
structure GeminiResult where
  legal_name : Option String
  sources : Option (List GroundingSource)
  estimated_cost : Option ℚ
deriving DecidableEq

/-- `legal_name = response.text.strip() if response.text else None` from
`verify_company_name_from_website`: an absent or empty response text yields
`None`; otherwise the stripped text (which may strip to the empty string). -/
def geminiLegalName (text : Option String) : Option String :=
  match text with
  | none => none
  | some t => if t = "" then none else some (pyStripStr t)

/-- The tagged outcome dictionary returned by `find_lei`. -/
inductive FindOutcome
  | success (lei legal_name address : String) (sources : List GroundingSource)
      (estimated_cost : ℚ)
  | failure (message : String)
deriving DecidableEq

/-- One call made by `find_lei` to an external adapter, in order. -/
inductive AdapterCall
  | registry (name : String)
  | verifier (website : String)
deriving DecidableEq

/-- The two external adapters seen from `find_lei`.  `Except.error e` models the
adapter raising an exception whose `str()` is `e`. -/
structure Env where
  registry : String → Except String (List LEIRecord)
  verifier : String → Except String GeminiResult

/-- `f"Error during LEI lookup: {str(e)}"`. -/
def errDuringLookupMsg (e : String) : String := "Error during LEI lookup: " ++ e

/-- `f"No LEI records found for '{company_name}'. ..."`. -/
def noRecordsMsg (company : String) : String :=
  "No LEI records found for " ++ sglq ++ company ++ sglq ++
    ". This company may not have a registered LEI."

/-- The fixed verification-failure message of `find_lei`. -/
def couldNotVerifyMsg : String := "Could not verify company name from the provided website."

/-- The no-match failure message of `find_lei`. -/
def noMatchMsg (company : String) : String :=
  "Found LEI records for " ++ sglq ++ company ++ sglq ++
    ", but could not verify a match with the legal name from the website. " ++
    "Please ensure the website URL is accurate."

/-- Embedding of `LEILookup.find_lei`.  The second component is the trace of
adapter calls actually made, in order.  The Python `try`/`except` around the whole
body is modelled by the `Except.error` branches: the function is total and always
returns a tagged outcome, never propagating the adapters' exceptions. -/
def findLei (env : Env) (company website : String) : FindOutcome × List AdapterCall :=
  match env.registry company with
  | .error e => (.failure (errDuringLookupMsg e), [.registry company])
  | .ok recs =>
    if recs.isEmpty then
      (.failure (noRecordsMsg company), [.registry company])
    else
      match env.verifier website with
      | .error e => (.failure (errDuringLookupMsg e), [.registry company, .verifier website])
      | .ok g =>
        match g.legal_name with
        | none => (.failure couldNotVerifyMsg, [.registry company, .verifier website])
        | some gname =>
          if gname = "" then
            (.failure couldNotVerifyMsg, [.registry company, .verifier website])
          else
            match findMatchingRecord recs gname with
            | none => (.failure (noMatchMsg company), [.registry company, .verifier website])
            | some r =>
              (.success r.lei r.legal_name r.address ((g.sources).getD [])
                ((g.estimated_cost).getD 0),
               [.registry company, .verifier website])

/-- A Python exception value, distinguishing `ValueError` (input validation)
from a generic wrapped `Exception`. -/
inductive PyExn
  | valueError (msg : String)
  | exception (msg : String)
deriving DecidableEq

/-- Python `str.upper()` (ASCII model). -/
def pyUpper (s : String) : String := String.mk (s.data.map Char.toUpper)

/-- The query parameters built by `get_lei_by_company_name` before the GET request. -/
structure GleifParams where
  filterLegalName : String
  pageSize : Nat
  pageNumber : Nat
  filterCountry : Option String
  filterStatus : Option String
deriving DecidableEq

/-- The parameter dictionary of `get_lei_by_company_name`: stripped name, page size
capped at 200, page number 1, and the optional filters added only when truthy
(a `None` or empty-string filter is omitted), uppercased. -/
def buildParams (name : String) (pageSize : Nat) (country status : Option String) : GleifParams :=
  { filterLegalName := pyStripStr name
    pageSize := min pageSize 200
    pageNumber := 1
    filterCountry :=
      match country with
      | some s => if s = "" then none else some (pyUpper s)
      | none => none
    filterStatus :=
      match status with
      | some s => if s = "" then none else some (pyUpper s)
      | none => none }

/-- Embedding of `GLEIFClient.get_lei_by_company_name`.  The HTTP transport plus
`_parse_lei_records` is abstracted as the oracle `http`, which returns the parsed
records or the message of the (already wrapped) exception the transport branch
raises.  The second component is the trace of HTTP requests issued.  The guard
`if not company_name or not company_name.strip()` raises `ValueError` before any
request is built or sent. -/
def getLeiByCompanyName (http : GleifParams → Except String (List LEIRecord))
    (name : String) (pageSize : Nat) (country status : Option String) :
    Except PyExn (List LEIRecord) × List GleifParams :=
  if name = "" || pyStripStr name = "" then
    (.error (.valueError "Company name cannot be empty"), [])
  else
    let ps := buildParams name pageSize country status
    match http ps with
    | .ok recs => (.ok recs, [ps])
    | .error e => (.error (.exception e), [ps])

/-- The literal part of the regex `r"'retryDelay': '(\d+)"` of `_extract_retry_delay`. -/
def retryLit : List Char := sglq.data ++ "retryDelay".data ++ sglq.data ++ ": ".data ++ sglq.data

/-- `re.search` for `r"'retryDelay': '(\d+)"`: find the leftmost occurrence of the
literal followed by at least one digit, and return the (maximal) digit run's value. -/
def extractAux : List Char → Option Nat
  | [] => none
  | c :: l =>
    if retryLit.isPrefixOf (c :: l) then
      let ds := ((c :: l).drop retryLit.length).takeWhile Char.isDigit
      if ds.isEmpty then extractAux l
      else some (ds.foldl (fun n d => 10 * n + (d.toNat - 48)) 0)
    else extractAux l

/-- Embedding of `GeminiService._extract_retry_delay`. -/
def extractRetryDelay (e : String) : Option Nat := extractAux e.data

/-- `self._extract_retry_delay(str(e)) or 60`: note that Python `or` also replaces
a successfully extracted delay of `0` (falsy) with the default 60. -/
def retryDelayOf (e : String) : Nat :=
  match extractRetryDelay e with
  | some n => if n = 0 then 60 else n
  | none => 60

/-- A Gemini API response, reduced to the fields the service reads. -/
structure GenResponse where
  text : Option String
deriving DecidableEq

/-- The observable behaviour of the retry loop: its result, the sleeps performed
between attempts (in order, in seconds), and how many attempts were made. -/
structure RetryTrace where
  result : Except String GenResponse
  delays : List Nat
  attempts : Nat

/-- Embedding of the `for attempt in range(4)` retry loop of
`verify_company_name_from_website`.  `call i` is the outcome of the `i`-th
`generate_content` call (an `Except.error e` models an exception with
`str(e) = e`).  On the last attempt (`attempt == 3`) a failure is re-raised as
the terminal message without sleeping; otherwise the loop sleeps for
`retryDelayOf e` seconds and retries. -/
def geminiAttempts (call : Nat → Except String GenResponse) : RetryTrace :=
  match call 0 with
  | .ok r => ⟨.ok r, [], 1⟩
  | .error e0 =>
    match call 1 with
    | .ok r => ⟨.ok r, [retryDelayOf e0], 2⟩
    | .error e1 =>
      match call 2 with
      | .ok r => ⟨.ok r, [retryDelayOf e0, retryDelayOf e1], 3⟩
      | .error e2 =>
        match call 3 with
        | .ok r => ⟨.ok r, [retryDelayOf e0, retryDelayOf e1, retryDelayOf e2], 4⟩
        | .error e3 =>
          ⟨.error ("Error calling Gemini API after 4 attempts: " ++ e3),
           [retryDelayOf e0, retryDelayOf e1, retryDelayOf e2], 4⟩

/-- The acceptance condition of the matching loop, as a predicate on one record:
a non-empty `legal_name` whose normalization contains or is contained in the
(already normalized) verified name `ng`. -/
def matchCond (ng : String) (r : LEIRecord) : Bool :=
  !(r.legal_name == "") &&
    (isSubstr ng.data (normalizeName r.legal_name).data ||
     isSubstr (normalizeName r.legal_name).data ng.data)

/-- A sample registry record used in concrete evaluations. -/
def acmeRec : LEIRecord :=
  ⟨"5493001KJTIIGC8Y1R12", "Acme Industries", "ACTIVE", "US", "Springfield",
   "1 Main St, Springfield", "12345", "2020-01-01", "2024-01-01", "", ""⟩

/-- A sample registry record matching the end-to-end example of the spec. -/
def exampleRec : LEIRecord :=
  ⟨"ABCDEFGHIJKLMNOPQRST", "Example Holdings Ltd", "ACTIVE", "GB", "London",
   "1 Main St, Springfield", "", "", "", "", ""⟩

/-- An environment whose registry finds nothing. -/
def envZero : Env := ⟨fun _ => .ok [], fun _ => .ok ⟨some "X", some [], some 0⟩⟩

/-- An environment whose registry raises. -/
def envRegistryBoom : Env := ⟨fun _ => .error "boom", fun _ => .ok ⟨none, none, none⟩⟩

/-- An environment realizing the end-to-end success example of the spec. -/
def envSuccess : Env :=
  ⟨fun _ => .ok [exampleRec],
   fun _ => .ok ⟨some "Example Holdings", some [⟨"https://example.com", "About"⟩],
     some (1 / 5000)⟩⟩

/-- An environment whose verifier's response text is whitespace only. -/
def envBlankText : Env :=
  ⟨fun _ => .ok [acmeRec], fun _ => .ok ⟨geminiLegalName (some " "), none, none⟩⟩

/-- An error string carrying a server-specified retry delay of zero seconds. -/
def delayZeroErr : String :=
  "429 RESOURCE_EXHAUSTED " ++ sglq ++ "retryDelay" ++ sglq ++ ": " ++ sglq ++ "0s" ++ sglq

/-- A call sequence whose first attempt fails with a zero retry delay. -/
def callDelayZero : Nat → Except String GenResponse :=
  fun i => if i = 0 then .error delayZeroErr else .ok ⟨some "Acme Corp"⟩

/-- A call sequence that fails every attempt. -/
def callAllFail : Nat → Except String GenResponse := fun _ => .error "boom"

/-- A record equal to `acmeRec` on `legal_name` only. -/
def acmeRecOther : LEIRecord :=
  ⟨"9999999999XXXXXXXXXX", "Acme Industries", "INACTIVE", "DE", "Berlin",
   "2 Side St, Berlin", "99999", "2001-01-01", "2002-01-01", "BRANCH", "DE"⟩

/-! Assembling the sixteen substitutions into a characterization of
`normalizeName` on punctuation-free strings. -/

/-- Predicate for the words that survive suffix stripping: not equal to the
literal body of any of the sixteen patterns. -/
def keepWord (w : List Char) : Bool := suffixPatterns.all (fun pat => !(w == pat.lits))

lemma findMatchAux_eq_findQ (ng : String) :
    ∀ rs : List LEIRecord, findMatchAux ng rs = rs.find? (matchCond ng) := by
  intro rs
  induction rs with
  | nil => rfl
  | cons r t ih =>
    by_cases h1 : r.legal_name = ""
    · have hc : matchCond ng r = false := by simp [matchCond, h1]
      simp [findMatchAux, h1, List.find?_cons, hc, ih]
    · by_cases h2 : (isSubstr ng.data (normalizeName r.legal_name).data ||
          isSubstr (normalizeName r.legal_name).data ng.data) = true
      · have hc : matchCond ng r = true := by simp [matchCond, h1, h2]
        simp [findMatchAux, h1, h2, List.find?_cons, hc]
      · have hc : matchCond ng r = false := by
          simp only [matchCond, Bool.and_eq_false_iff]
          right
          exact Bool.not_eq_true _ ▸ (by simpa using h2)
        simp only [Bool.or_eq_true] at h2
        simp [findMatchAux, h1, h2, List.find?_cons, hc, ih]

/-- C3: the matching policy is first-match with bidirectional containment:
`_find_matching_record` iterates candidates in registry order, skips a
candidate exactly when its `legal_name` is empty, and returns the first
candidate whose normalized name contains or is contained in the normalized
verified name (`List.find?` returns the first element satisfying the
predicate, so no candidate after the first hit is consulted). -/
theorem c3_first_match_bidirectional (records : List LEIRecord) (geminiName : String) :
    findMatchingRecord records geminiName =
      records.find? (matchCond (normalizeName geminiName)) :=
  findMatchAux_eq_findQ (normalizeName geminiName) records

/-- C1: the code has no empty-string guard, so a verified name that normalizes
to the empty string ("Inc.") trivially "is contained in" every non-empty
normalized candidate name and the first candidate is selected — the claim
(and spec section 4.1) require that it not be. -/
theorem c1_empty_normalized_matches_nonempty :
    normalizeName "Inc." = "" ∧ normalizeName "Acme Industries" = "acme industries" ∧
      findMatchingRecord [acmeRec] "Inc." = some acmeRec := by decide

/-- C2 counterexample: normalization is not idempotent.  Removing punctuation
can create a fresh suffix token: "in-c" normalizes to "inc", whose own
normalization strips the `inc` token and yields the empty string. -/
theorem c2_counterexample :
    normalizeName "in-c" = "inc" ∧ normalizeName (normalizeName "in-c") = "" ∧
      normalizeName (normalizeName "in-c") ≠ normalizeName "in-c" := by decide

/-- C4: if the registry lookup returns zero records, `find_lei` returns the
no-records `Failure` and the verifier adapter is never invoked (the call trace
contains only the registry call). -/
theorem c4_zero_candidates_short_circuit (env : Env) (company website : String)
    (h : env.registry company = .ok []) :
    findLei env company website = (.failure (noRecordsMsg company), [.registry company]) := by
  simp [findLei, h]

theorem c4_witness :
    envZero.registry "Nonexistent Co" = .ok [] ∧
      findLei envZero "Nonexistent Co" "https://example.com" =
        (.failure (noRecordsMsg "Nonexistent Co"), [.registry "Nonexistent Co"]) :=
  ⟨rfl, c4_zero_candidates_short_circuit envZero "Nonexistent Co" "https://example.com" rfl⟩

/-- C5: `find_lei` never propagates an adapter exception: whichever adapter
raises, the caller receives a tagged `Failure` whose message is
"Error during LEI lookup: " followed by `str(exception)`.  (`findLei` is a total
function into `FindOutcome`, so the caller always receives a tagged outcome; the
matching step itself is pure and cannot raise.) -/
theorem c5_exception_becomes_failure (env : Env) (company website e : String) :
    (env.registry company = .error e →
      findLei env company website =
        (.failure (errDuringLookupMsg e), [.registry company])) ∧
    (∀ recs, env.registry company = .ok recs → recs ≠ [] →
      env.verifier website = .error e →
      findLei env company website =
        (.failure (errDuringLookupMsg e), [.registry company, .verifier website])) := by
  refine ⟨fun h => by simp [findLei, h], fun recs h hne hv => ?_⟩
  have : recs.isEmpty = false := by simpa [List.isEmpty_iff] using hne
  simp [findLei, h, hv, this]

theorem c5_witness :
    findLei envRegistryBoom "Acme" "https://acme.com" =
      (.failure (errDuringLookupMsg "boom"), [.registry "Acme"]) :=
  (c5_exception_becomes_failure envRegistryBoom "Acme" "https://acme.com" "boom").1 rfl

/-- C6: an empty or whitespace-only company name makes
`get_lei_by_company_name` raise `ValueError` before any HTTP request is issued
(the request trace is empty), a caller error rather than a network failure. -/
theorem c6_blank_name_rejected_before_request
    (http : GleifParams → Except String (List LEIRecord)) (name : String)
    (pageSize : Nat) (country status : Option String)
    (h : ∀ c ∈ name.data, isPySpace c = true) :
    getLeiByCompanyName http name pageSize country status =
      (.error (.valueError "Company name cannot be empty"), []) := by
  have hstrip : pyStripStr name = "" := by
    have hdw : name.data.dropWhile isPySpace = [] := List.dropWhile_eq_nil_iff.mpr h
    simp [pyStripStr, pyStrip, hdw]
  simp [getLeiByCompanyName, hstrip]

theorem c6_witness :
    (∀ c ∈ ("   " : String).data, isPySpace c = true) ∧
      getLeiByCompanyName (fun _ => .ok []) "   " 10 none (some "ACTIVE") =
        (.error (.valueError "Company name cannot be empty"), []) :=
  ⟨by decide, c6_blank_name_rejected_before_request (fun _ => .ok []) "   " 10 none
    (some "ACTIVE") (by decide)⟩

/-- C8: on a successful match, `find_lei` returns `Success` populated from the
matched record's `lei`, `legal_name` and `address`, the verifier's sources
unchanged and in order (defaulting to `[]` when absent), and the verifier's
estimated cost, defaulting to `0.0` when the verifier result carries none. -/
theorem c8_success_fields (env : Env) (company website : String)
    (recs : List LEIRecord) (g : GeminiResult) (n : String) (r : LEIRecord)
    (hreg : env.registry company = .ok recs) (hne : recs ≠ [])
    (hver : env.verifier website = .ok g) (hname : g.legal_name = some n)
    (hn : n ≠ "") (hmatch : findMatchingRecord recs n = some r) :
    findLei env company website =
      (.success r.lei r.legal_name r.address (g.sources.getD []) (g.estimated_cost.getD 0),
       [.registry company, .verifier website]) := by
  have : recs.isEmpty = false := by simpa [List.isEmpty_iff] using hne
  simp [findLei, hreg, hver, hname, hn, hmatch, this]

theorem c8_witness :
    findLei envSuccess "Example Holdings" "https://example.com" =
      (.success "ABCDEFGHIJKLMNOPQRST" "Example Holdings Ltd" "1 Main St, Springfield"
        [⟨"https://example.com", "About"⟩] (1 / 5000),
       [.registry "Example Holdings", .verifier "https://example.com"]) :=
  c8_success_fields envSuccess "Example Holdings" "https://example.com"
    [exampleRec] ⟨some "Example Holdings", some [⟨"https://example.com", "About"⟩],
      some (1 / 5000)⟩ "Example Holdings" exampleRec
    rfl (by decide) rfl rfl (by decide) (by decide)

/-- C10: a verified legal name that is the empty string (for example, a response
text that strips to "") is treated exactly like an absent one: for every
non-empty candidate list, `find_lei` returns the could-not-verify `Failure`
without reaching the matching step (the outcome does not depend on the
records' contents). -/
theorem c10_empty_verified_name_like_absent (env : Env) (company website : String)
    (recs : List LEIRecord) (g : GeminiResult) (t : String)
    (hreg : env.registry company = .ok recs) (hne : recs ≠ [])
    (hver : env.verifier website = .ok g)
    (ht : t ≠ "") (hsp : ∀ c ∈ t.data, isPySpace c = true)
    (hname : g.legal_name = geminiLegalName (some t)) :
    findLei env company website =
      (.failure couldNotVerifyMsg, [.registry company, .verifier website]) := by
  have hstrip : pyStripStr t = "" := by
    have hdw : t.data.dropWhile isPySpace = [] := List.dropWhile_eq_nil_iff.mpr hsp
    simp [pyStripStr, pyStrip, hdw]
  have hgl : geminiLegalName (some t) = some "" := by simp [geminiLegalName, ht, hstrip]
  have : recs.isEmpty = false := by simpa [List.isEmpty_iff] using hne
  simp [findLei, hreg, hver, hname, hgl, this]

theorem c10_witness :
    findLei envBlankText "Acme" "https://acme.com" =
      (.failure couldNotVerifyMsg, [.registry "Acme", .verifier "https://acme.com"]) :=
  c10_empty_verified_name_like_absent envBlankText "Acme" "https://acme.com"
    [acmeRec] ⟨geminiLegalName (some " "), none, none⟩ " "
    rfl (by decide) rfl (by decide) (by decide) rfl

/-- C7 counterexample: when the error carries a server-specified retry delay of
0 seconds, the code does not honor it — Python `or` treats the extracted 0 as
falsy and the loop waits the default 60 seconds instead. -/
theorem c7_counterexample :
    extractRetryDelay delayZeroErr = some 0 ∧
      (geminiAttempts callDelayZero).delays = [60] ∧ (60 : Nat) ≠ 0 := by
  refine ⟨by decide, ?_, by decide⟩
  have h0 : callDelayZero 0 = .error delayZeroErr := rfl
  have h1 : callDelayZero 1 = .ok ⟨some "Acme Corp"⟩ := rfl
  simp [geminiAttempts, h0, h1, retryDelayOf]
  decide

/-- C7 (amended): the retry loop makes at most 4 attempts; between attempts it
waits the server-specified retry delay when the error carries a positive one
and 60 seconds otherwise (including when the carried delay is 0); after the
4th failed attempt it raises the terminal failure without sleeping again. -/
theorem c7_retry_policy (call : Nat → Except String GenResponse) :
    (geminiAttempts call).attempts ≤ 4 ∧
    (∀ e n, extractRetryDelay e = some n → 0 < n → retryDelayOf e = n) ∧
    (∀ e, extractRetryDelay e = none → retryDelayOf e = 60) ∧
    (∀ e, extractRetryDelay e = some 0 → retryDelayOf e = 60) ∧
    (∀ d ∈ (geminiAttempts call).delays,
      ∃ i e, i < 3 ∧ call i = .error e ∧ d = retryDelayOf e) ∧
    (∀ e0 e1 e2 e3, call 0 = .error e0 → call 1 = .error e1 → call 2 = .error e2 →
      call 3 = .error e3 →
      (geminiAttempts call).result =
          .error ("Error calling Gemini API after 4 attempts: " ++ e3) ∧
        (geminiAttempts call).attempts = 4 ∧
        (geminiAttempts call).delays = [retryDelayOf e0, retryDelayOf e1, retryDelayOf e2]) := by
  refine ⟨?_, ?_, ?_, ?_, ?_, ?_⟩
  · cases h0 : call 0 with
    | error e0 =>
      cases h1 : call 1 with
      | error e1 =>
        cases h2 : call 2 with
        | error e2 =>
          cases h3 : call 3 with
          | error e3 => simp [geminiAttempts, h0, h1, h2, h3]
          | ok r => simp [geminiAttempts, h0, h1, h2, h3]
        | ok r => simp [geminiAttempts, h0, h1, h2]
      | ok r => simp [geminiAttempts, h0, h1]
    | ok r => simp [geminiAttempts, h0]
  · intro e n he hn
    simp [retryDelayOf, he, Nat.pos_iff_ne_zero.mp hn]
  · intro e he
    simp [retryDelayOf, he]
  · intro e he
    simp [retryDelayOf, he]
  · intro d hd
    cases h0 : call 0 with
    | ok r => simp [geminiAttempts, h0] at hd
    | error e0 =>
      cases h1 : call 1 with
      | ok r =>
        simp [geminiAttempts, h0, h1] at hd
        exact ⟨0, e0, by omega, h0, hd⟩
      | error e1 =>
        cases h2 : call 2 with
        | ok r =>
          simp [geminiAttempts, h0, h1, h2] at hd
          rcases hd with hd | hd
          · exact ⟨0, e0, by omega, h0, hd⟩
          · exact ⟨1, e1, by omega, h1, hd⟩
        | error e2 =>
          cases h3 : call 3 with
          | ok r =>
            simp [geminiAttempts, h0, h1, h2, h3] at hd
            rcases hd with hd | hd | hd
            · exact ⟨0, e0, by omega, h0, hd⟩
            · exact ⟨1, e1, by omega, h1, hd⟩
            · exact ⟨2, e2, by omega, h2, hd⟩
          | error e3 =>
            simp [geminiAttempts, h0, h1, h2, h3] at hd
            rcases hd with hd | hd | hd
            · exact ⟨0, e0, by omega, h0, hd⟩
            · exact ⟨1, e1, by omega, h1, hd⟩
            · exact ⟨2, e2, by omega, h2, hd⟩
  · intro e0 e1 e2 e3 h0 h1 h2 h3
    simp [geminiAttempts, h0, h1, h2, h3]

theorem c7_witness :
    (geminiAttempts callAllFail).attempts ≤ 4 ∧
      (geminiAttempts callAllFail).result =
        .error ("Error calling Gemini API after 4 attempts: boom") ∧
      (geminiAttempts callAllFail).delays = [60, 60, 60] := by
  obtain ⟨h1, -, -, -, -, h6⟩ := c7_retry_policy callAllFail
  obtain ⟨hr, -, hdl⟩ := h6 "boom" "boom" "boom" "boom" rfl rfl rfl rfl
  refine ⟨h1, hr, ?_⟩
  rw [hdl]
  decide

lemma findMatchAux_legal_name_only (ng : String) :
    ∀ (rs₁ rs₂ : List LEIRecord), rs₁.length = rs₂.length →
      (∀ i (h₁ : i < rs₁.length) (h₂ : i < rs₂.length),
        (rs₁.get ⟨i, h₁⟩).legal_name = (rs₂.get ⟨i, h₂⟩).legal_name) →
      (findMatchAux ng rs₁ = none ∧ findMatchAux ng rs₂ = none) ∨
      (∃ i, ∃ (h₁ : i < rs₁.length), ∃ (h₂ : i < rs₂.length),
        findMatchAux ng rs₁ = some (rs₁.get ⟨i, h₁⟩) ∧
        findMatchAux ng rs₂ = some (rs₂.get ⟨i, h₂⟩)) := by
  intro rs₁
  induction rs₁ with
  | nil =>
    intro rs₂ hlen _
    cases rs₂ with
    | nil => exact .inl ⟨rfl, rfl⟩
    | cons r t => simp at hlen
  | cons r₁ t₁ ih =>
    intro rs₂ hlen hpair
    cases rs₂ with
    | nil => simp at hlen
    | cons r₂ t₂ =>
      have h0 : r₁.legal_name = r₂.legal_name := by
        have := hpair 0 (by simp) (by simp)
        simpa using this
      have hlen' : t₁.length = t₂.length := by simpa using hlen
      have hpair' : ∀ i (h₁ : i < t₁.length) (h₂ : i < t₂.length),
          (t₁.get ⟨i, h₁⟩).legal_name = (t₂.get ⟨i, h₂⟩).legal_name := by
        intro i h₁ h₂
        have := hpair (i + 1) (by simpa using Nat.succ_lt_succ h₁)
          (by simpa using Nat.succ_lt_succ h₂)
        simpa using this
      by_cases he : r₁.legal_name = ""
      · have he₂ : r₂.legal_name = "" := h0 ▸ he
        have step₁ : findMatchAux ng (r₁ :: t₁) = findMatchAux ng t₁ := by
          simp [findMatchAux, he]
        have step₂ : findMatchAux ng (r₂ :: t₂) = findMatchAux ng t₂ := by
          simp [findMatchAux, he₂]
        rcases ih t₂ hlen' hpair' with ⟨hn₁, hn₂⟩ | ⟨i, h₁, h₂, hs₁, hs₂⟩
        · exact .inl ⟨step₁ ▸ hn₁, step₂ ▸ hn₂⟩
        · refine .inr ⟨i + 1, Nat.succ_lt_succ h₁, Nat.succ_lt_succ h₂, ?_, ?_⟩
          · rw [step₁, hs₁]; rfl
          · rw [step₂, hs₂]; rfl
      · have he₂ : ¬r₂.legal_name = "" := h0 ▸ he
        by_cases hc : (isSubstr ng.data (normalizeName r₁.legal_name).data ||
            isSubstr (normalizeName r₁.legal_name).data ng.data) = true
        · have hc₂ : (isSubstr ng.data (normalizeName r₂.legal_name).data ||
              isSubstr (normalizeName r₂.legal_name).data ng.data) = true := by
            rw [← h0]; exact hc
          refine .inr ⟨0, by simp, by simp, ?_, ?_⟩
          · simp [findMatchAux, he, hc]
          · simp [findMatchAux, he₂, hc₂]
        · have hc₂ : ¬((isSubstr ng.data (normalizeName r₂.legal_name).data ||
              isSubstr (normalizeName r₂.legal_name).data ng.data) = true) := by
            rw [← h0]; exact hc
          have step₁ : findMatchAux ng (r₁ :: t₁) = findMatchAux ng t₁ := by
            simp only [Bool.or_eq_true] at hc
            simp [findMatchAux, he, hc]
          have step₂ : findMatchAux ng (r₂ :: t₂) = findMatchAux ng t₂ := by
            simp only [Bool.or_eq_true] at hc₂
            simp [findMatchAux, he₂, hc₂]
          rcases ih t₂ hlen' hpair' with ⟨hn₁, hn₂⟩ | ⟨i, h₁, h₂, hs₁, hs₂⟩
          · exact .inl ⟨step₁ ▸ hn₁, step₂ ▸ hn₂⟩
          · refine .inr ⟨i + 1, Nat.succ_lt_succ h₁, Nat.succ_lt_succ h₂, ?_, ?_⟩
            · rw [step₁, hs₁]; rfl
            · rw [step₂, hs₂]; rfl

/-- C9: the matching decision depends only on the `legal_name` field: two
candidate lists of equal length that agree on `legal_name` position by position
(but may differ arbitrarily in every other field) either both produce no match
or produce the record at the same position — and the selected value is the
original record itself (`rs.get i`), so every other field is carried through
unmodified. -/
theorem c9_match_depends_only_on_legal_name (rs₁ rs₂ : List LEIRecord) (g : String)
    (hlen : rs₁.length = rs₂.length)
    (hpair : ∀ i (h₁ : i < rs₁.length) (h₂ : i < rs₂.length),
      (rs₁.get ⟨i, h₁⟩).legal_name = (rs₂.get ⟨i, h₂⟩).legal_name) :
    (findMatchingRecord rs₁ g = none ∧ findMatchingRecord rs₂ g = none) ∨
    (∃ i, ∃ (h₁ : i < rs₁.length), ∃ (h₂ : i < rs₂.length),
      findMatchingRecord rs₁ g = some (rs₁.get ⟨i, h₁⟩) ∧
      findMatchingRecord rs₂ g = some (rs₂.get ⟨i, h₂⟩)) :=
  findMatchAux_legal_name_only (normalizeName g) rs₁ rs₂ hlen hpair

theorem c9_witness :
    ([acmeRec].length = [acmeRecOther].length ∧
      (∀ i (h₁ : i < [acmeRec].length) (h₂ : i < [acmeRecOther].length),
        ([acmeRec].get ⟨i, h₁⟩).legal_name = ([acmeRecOther].get ⟨i, h₂⟩).legal_name)) ∧
    ((findMatchingRecord [acmeRec] "Acme" = none ∧
        findMatchingRecord [acmeRecOther] "Acme" = none) ∨
      (∃ i, ∃ (h₁ : i < [acmeRec].length), ∃ (h₂ : i < [acmeRecOther].length),
        findMatchingRecord [acmeRec] "Acme" = some ([acmeRec].get ⟨i, h₁⟩) ∧
        findMatchingRecord [acmeRecOther] "Acme" = some ([acmeRecOther].get ⟨i, h₂⟩))) :=
  ⟨⟨by decide, by decide⟩,
    c9_match_depends_only_on_legal_name [acmeRec] [acmeRecOther] "Acme"
      (by decide) (by decide)⟩

/-! Character-level lemmas for the normalization proofs. -/

lemma boolEq_of_iff {a b : Bool} (h : a = true ↔ b = true) : a = b := by
  cases a <;> cases b <;> simp_all

lemma char_toNat_ofNat {n : Nat} (h : n.isValidChar) : (Char.ofNat n).toNat = n := by
  rw [Char.ofNat, dif_pos h]
  rfl

lemma isWordChar_true_iff (c : Char) :
    isWordChar c = true ↔
      (65 ≤ c.toNat ∧ c.toNat ≤ 90) ∨ (97 ≤ c.toNat ∧ c.toNat ≤ 122) ∨
        (48 ≤ c.toNat ∧ c.toNat ≤ 57) ∨ c.toNat = 95 := by
  simp only [isWordChar, Bool.or_eq_true, Bool.and_eq_true, decide_eq_true_eq, beq_iff_eq]
  omega

lemma isPySpace_true_iff (c : Char) :
    isPySpace c = true ↔
      c.toNat = 32 ∨ c.toNat = 9 ∨ c.toNat = 10 ∨ c.toNat = 13 ∨
        c.toNat = 11 ∨ c.toNat = 12 := by
  simp only [isPySpace, Bool.or_eq_true, beq_iff_eq]
  omega

lemma space_not_word {c : Char} (h : isPySpace c = true) : isWordChar c = false := by
  rw [isPySpace_true_iff] at h
  rw [Bool.eq_false_iff]
  intro h2
  rw [isWordChar_true_iff] at h2
  omega

lemma word_not_space {c : Char} (h : isWordChar c = true) : isPySpace c = false := by
  rw [isWordChar_true_iff] at h
  rw [Bool.eq_false_iff]
  intro h2
  rw [isPySpace_true_iff] at h2
  omega

lemma pyLower_toNat (c : Char) :
    (pyLower c).toNat = if 65 ≤ c.toNat ∧ c.toNat ≤ 90 then c.toNat + 32 else c.toNat := by
  unfold pyLower
  split
  · next h => exact char_toNat_ofNat (Or.inl (by omega))
  · rfl

lemma pyLower_eq_self {c : Char} (h : ¬(65 ≤ c.toNat ∧ c.toNat ≤ 90)) : pyLower c = c := by
  unfold pyLower
  rw [if_neg h]

lemma wordChar_pyLower (c : Char) : isWordChar (pyLower c) = isWordChar c := by
  refine boolEq_of_iff ?_
  rw [isWordChar_true_iff, isWordChar_true_iff, pyLower_toNat]
  by_cases h : 65 ≤ c.toNat ∧ c.toNat ≤ 90
  · rw [if_pos h]; omega
  · rw [if_neg h]

lemma pySpace_pyLower (c : Char) : isPySpace (pyLower c) = isPySpace c := by
  refine boolEq_of_iff ?_
  rw [isPySpace_true_iff, isPySpace_true_iff, pyLower_toNat]
  by_cases h : 65 ≤ c.toNat ∧ c.toNat ≤ 90
  · rw [if_pos h]; omega
  · rw [if_neg h]

lemma pyLower_idem (c : Char) : pyLower (pyLower c) = pyLower c := by
  by_cases h : 65 ≤ c.toNat ∧ c.toNat ≤ 90
  · have hn : (pyLower c).toNat = c.toNat + 32 := by rw [pyLower_toNat, if_pos h]
    exact pyLower_eq_self (by rw [hn]; omega)
  · simp only [pyLower_eq_self h]

/-! Structure of `stripLits` and `matchPat`. -/

lemma stripLits_eq_some {cs : List Char} :
    ∀ {l r : List Char}, stripLits cs l = some r ↔ l = cs ++ r := by
  induction cs with
  | nil => intro l r; simp [stripLits]
  | cons c cs ih =>
    intro l r
    cases l with
    | nil => simp [stripLits]
    | cons d l =>
      by_cases h : d = c
      · subst h
        simp only [stripLits, beq_self_eq_true, if_pos]
        rw [ih]
        simp
      · have hb : (d == c) = false := beq_eq_false_iff_ne.mpr h
        simp [stripLits, hb, h]

lemma matchTail_some {pat : SuffixPat} {r : List Char} {lc : Char} {rest : List Char}
    (h : matchTail pat r = some (lc, rest)) : rest = r ∨ r = '.' :: rest := by
  unfold matchTail at h
  by_cases ho : pat.optDot = true
  · rw [if_pos ho] at h
    cases r with
    | nil =>
      dsimp only at h
      split at h
      · simp only [Option.some.injEq, Prod.mk.injEq] at h
        exact Or.inl h.2.symm
      · cases h
    | cons r0 rest2 =>
      dsimp only at h
      by_cases hdot : r0 = '.'
      · rw [if_pos hdot] at h
        split at h
        · simp only [Option.some.injEq, Prod.mk.injEq] at h
          exact Or.inr (by rw [h.2, hdot])
        · split at h
          · simp only [Option.some.injEq, Prod.mk.injEq] at h
            exact Or.inl h.2.symm
          · cases h
      · rw [if_neg hdot] at h
        split at h
        · simp only [Option.some.injEq, Prod.mk.injEq] at h
          exact Or.inl h.2.symm
        · cases h
  · rw [if_neg ho] at h
    split at h
    · simp only [Option.some.injEq, Prod.mk.injEq] at h
      exact Or.inl h.2.symm
    · cases h

lemma matchPat_some {pat : SuffixPat} {p : Option Char} {l : List Char} {lc : Char}
    {rest : List Char} (h : matchPat pat p l = some (lc, rest)) :
    pat.lits ≠ [] ∧ boundaryB p l = true ∧
      (l = pat.lits ++ rest ∨ l = pat.lits ++ '.' :: rest) := by
  unfold matchPat at h
  by_cases h0 : pat.lits.isEmpty = true
  · rw [if_pos h0] at h; cases h
  rw [if_neg h0] at h
  have hne : pat.lits ≠ [] := by
    intro hx; exact h0 (by simp [hx])
  by_cases h1 : boundaryB p l = true
  · rw [if_pos h1] at h
    refine ⟨hne, h1, ?_⟩
    cases hs : stripLits pat.lits l with
    | none => rw [hs] at h; cases h
    | some r =>
      rw [hs, Option.some_bind] at h
      have hl : l = pat.lits ++ r := stripLits_eq_some.mp hs
      rcases matchTail_some h with hr | hr
      · exact Or.inl (hr ▸ hl)
      · exact Or.inr (hr ▸ hl)
  · rw [if_neg h1] at h; cases h

lemma matchPat_rest_length {pat : SuffixPat} {p : Option Char} {l : List Char} {lc : Char}
    {rest : List Char} (h : matchPat pat p l = some (lc, rest)) : rest.length < l.length := by
  rcases matchPat_some h with ⟨hne, -, hl | hl⟩ <;>
    · rw [hl]
      have : 0 < pat.lits.length := List.length_pos.mpr hne
      simp [List.length_append]
      omega

lemma reSubAux_fuel {pat : SuffixPat} :
    ∀ (f1 f2 : Nat) (p : Option Char) (l : List Char),
      l.length ≤ f1 → l.length ≤ f2 → reSubAux pat f1 p l = reSubAux pat f2 p l := by
  intro f1
  induction f1 with
  | zero =>
    intro f2 p l h1 _
    have hl : l = [] := List.length_eq_zero.mp (Nat.le_zero.mp h1)
    subst hl
    cases f2 <;> rfl
  | succ n ih =>
    intro f2 p l h1 h2
    cases l with
    | nil => cases f2 <;> rfl
    | cons c t =>
      cases f2 with
      | zero => simp at h2
      | succ m =>
        simp only [reSubAux]
        cases hm : matchPat pat p (c :: t) with
        | none =>
          have ht : t.length ≤ n := by simpa using h1
          have ht2 : t.length ≤ m := by simpa using h2
          rw [ih m (some c) t ht ht2]
        | some pr =>
          obtain ⟨lc, rest⟩ := pr
          have hr := matchPat_rest_length hm
          simp only [List.length_cons] at h1 h2 hr
          exact ih m (some lc) rest (by omega) (by omega)

lemma reSubGo_nil {pat : SuffixPat} {p : Option Char} : reSubGo pat p [] = [] := rfl

lemma reSubGo_cons (pat : SuffixPat) (p : Option Char) (c : Char) (t : List Char) :
    reSubGo pat p (c :: t) =
      match matchPat pat p (c :: t) with
      | some (lc, rest) => reSubGo pat (some lc) rest
      | none => c :: reSubGo pat (some c) t := by
  show reSubAux pat (t.length + 1) p (c :: t) = _
  simp only [reSubAux]
  cases hm : matchPat pat p (c :: t) with
  | none => rfl
  | some pr =>
    obtain ⟨lc, rest⟩ := pr
    have hr := matchPat_rest_length hm
    simp only [List.length_cons] at hr
    exact reSubAux_fuel t.length rest.length (some lc) rest (by omega) (by omega)

lemma reSub_eq_go {pat : SuffixPat} {l : List Char} : reSub pat l = reSubGo pat none l := rfl

lemma reSubGo_sublist (pat : SuffixPat) :
    ∀ (fuel : Nat) (p : Option Char) (l : List Char), (reSubAux pat fuel p l).Sublist l := by
  intro fuel
  induction fuel with
  | zero => intro p l; exact List.Sublist.refl l
  | succ n ih =>
    intro p l
    cases l with
    | nil => simp [reSubAux]
    | cons c t =>
      simp only [reSubAux]
      cases hm : matchPat pat p (c :: t) with
      | none => exact (ih (some c) t).cons₂ c
      | some pr =>
        obtain ⟨lc, rest⟩ := pr
        have hsuf : rest.Sublist (c :: t) := by
          rcases matchPat_some hm with ⟨-, -, hl | hl⟩
          · rw [hl]; exact List.sublist_append_right _ _
          · rw [hl]
            have : rest.Sublist ('.' :: rest) := List.sublist_cons_self '.' rest
            exact this.trans (List.sublist_append_right _ _)
        exact (ih (some lc) rest).trans hsuf

/-! Evaluation lemmas for the scan on word/whitespace strings. -/

lemma headIsWord_cons {c : Char} {t : List Char} : headIsWord (c :: t) = isWordChar c := rfl

lemma prevIsWord_some {c : Char} : prevIsWord (some c) = isWordChar c := rfl

lemma getLastD_mem {l : List Char} (h : l ≠ []) (d : Char) : l.getLastD d ∈ l := by
  induction l generalizing d with
  | nil => exact absurd rfl h
  | cons c t ih =>
    rw [List.getLastD_cons]
    cases t with
    | nil => simp [List.getLastD]
    | cons c2 t2 => exact List.mem_cons_of_mem c (ih (by simp) c)

lemma matchTail_eval_boundary {pat : SuffixPat} {r : List Char}
    (hlw : isWordChar (pat.lits.getLastD ' ') = true)
    (hnd : r.head? ≠ some '.') (hhw : headIsWord r = false) :
    matchTail pat r = some (pat.lits.getLastD ' ', r) := by
  have hb : boundaryB (some (pat.lits.getLastD ' ')) r = true := by
    simp only [boundaryB, prevIsWord_some]
    rw [hlw, hhw]
    rfl
  unfold matchTail
  by_cases ho : pat.optDot = true
  · rw [if_pos ho]
    cases r with
    | nil =>
      dsimp only
      rw [if_pos hb]
    | cons r0 r' =>
      have hr0 : ¬r0 = '.' := by
        intro he
        refine hnd ?_
        rw [he]
        rfl
      dsimp only
      rw [if_neg hr0, if_pos hb]
  · rw [if_neg ho, if_pos hb]

lemma matchTail_none_word_head {pat : SuffixPat} {r : List Char}
    (hlw : isWordChar (pat.lits.getLastD ' ') = true) (hhw : headIsWord r = true) :
    matchTail pat r = none := by
  have hb : boundaryB (some (pat.lits.getLastD ' ')) r = false := by
    simp only [boundaryB, prevIsWord_some]
    rw [hlw, hhw]
    rfl
  unfold matchTail
  by_cases ho : pat.optDot = true
  · rw [if_pos ho]
    cases r with
    | nil => exact absurd hhw (by decide)
    | cons r0 r' =>
      by_cases hdot : r0 = '.'
      · subst hdot
        rw [headIsWord_cons] at hhw
        exact absurd hhw (by decide)
      · dsimp only
        rw [if_neg hdot, if_neg (by rw [hb]; simp)]
  · rw [if_neg ho, if_neg (by rw [hb]; simp)]

lemma matchPat_none_word_prev {pat : SuffixPat} {p : Option Char} {l : List Char}
    (hp : prevIsWord p = true) (hl : headIsWord l = true) : matchPat pat p l = none := by
  unfold matchPat
  have hb : boundaryB p l = false := by simp [boundaryB, hp, hl]
  by_cases he : pat.lits.isEmpty = true
  · rw [if_pos he]
  · rw [if_neg he, if_neg (by rw [hb]; simp)]

lemma takeWhile_word_append {a b : List Char} (ha : ∀ x ∈ a, isWordChar x = true)
    (hb : headIsWord b = false) : (a ++ b).takeWhile isWordChar = a := by
  induction a with
  | nil =>
    simp only [List.nil_append]
    cases b with
    | nil => rfl
    | cons b0 t =>
      have h0 : isWordChar b0 = false := hb
      rw [List.takeWhile_cons_of_neg (by simp [h0])]
  | cons c a ih =>
    rw [List.cons_append, List.takeWhile_cons_of_pos (ha c (List.mem_cons_self c a)),
      ih (fun x hx => ha x (List.mem_cons_of_mem c hx))]

lemma matchPat_none_not_tok {pat : SuffixPat} {p : Option Char} {l : List Char}
    (hword : ∀ x ∈ pat.lits, isWordChar x = true)
    (htw : l.takeWhile isWordChar ≠ pat.lits) : matchPat pat p l = none := by
  unfold matchPat
  by_cases he : pat.lits.isEmpty = true
  · rw [if_pos he]
  by_cases hb : boundaryB p l = true
  case neg => rw [if_neg he, if_neg hb]
  rw [if_neg he, if_pos hb]
  cases hs : stripLits pat.lits l with
  | none => rfl
  | some r =>
    rw [Option.some_bind]
    have hl : l = pat.lits ++ r := stripLits_eq_some.mp hs
    have hne : pat.lits ≠ [] := by intro hx; exact he (by rw [hx]; rfl)
    cases hr : headIsWord r with
    | false =>
      exact absurd (by rw [hl]; exact takeWhile_word_append hword hr) htw
    | true => exact matchTail_none_word_head (hword _ (getLastD_mem hne ' ')) hr

lemma matchPat_at_tok {pat : SuffixPat} {p : Option Char} {rest : List Char}
    (hne : pat.lits ≠ []) (hword : ∀ x ∈ pat.lits, isWordChar x = true)
    (hp : prevIsWord p = false) (hnd : rest.head? ≠ some '.')
    (hhw : headIsWord rest = false) :
    matchPat pat p (pat.lits ++ rest) = some (pat.lits.getLastD ' ', rest) := by
  unfold matchPat
  have he : ¬pat.lits.isEmpty = true := by simp [List.isEmpty_iff, hne]
  rw [if_neg he]
  have hb : boundaryB p (pat.lits ++ rest) = true := by
    cases hl : pat.lits with
    | nil => exact absurd hl hne
    | cons c0 cs =>
      have hw0 : isWordChar c0 = true := hword c0 (by rw [hl]; exact List.mem_cons_self c0 cs)
      simp [boundaryB, hp, headIsWord, hw0]
  rw [if_pos hb, stripLits_eq_some.mpr rfl, Option.some_bind]
  exact matchTail_eval_boundary (hword _ (getLastD_mem hne ' ')) hnd hhw

lemma dropWhile_head_not {q : Char → Bool} :
    ∀ {l : List Char} {c : Char} {t : List Char}, l.dropWhile q = c :: t → q c = false := by
  intro l
  induction l with
  | nil => intro c t h; cases h
  | cons a l ih =>
    intro c t h
    by_cases ha : q a = true
    · rw [List.dropWhile_cons_of_pos ha] at h; exact ih h
    · rw [List.dropWhile_cons_of_neg ha] at h
      injection h with h1 _
      rw [← h1]
      exact Bool.eq_false_iff.mpr ha

lemma walk_word {pat : SuffixPat} (w : List Char) (hw : ∀ x ∈ w, isWordChar x = true) :
    ∀ (p : Option Char) (rest : List Char), prevIsWord p = true →
      ∃ q, prevIsWord q = true ∧ reSubGo pat p (w ++ rest) = w ++ reSubGo pat q rest := by
  induction w with
  | nil => intro p rest hp; exact ⟨p, hp, by simp⟩
  | cons c w ih =>
    intro p rest hp
    have hc : isWordChar c = true := hw c (List.mem_cons_self c w)
    have hmp : matchPat pat p (c :: (w ++ rest)) = none := matchPat_none_word_prev hp hc
    obtain ⟨q, hq, heq⟩ :=
      ih (fun x hx => hw x (List.mem_cons_of_mem c hx)) (some c) rest hc
    refine ⟨q, hq, ?_⟩
    simp only [List.cons_append, reSubGo_cons, hmp]
    rw [heq]

/-! `pySplit` on word/whitespace strings. -/

lemma splitRaw_cons (c : Char) (l : List Char) :
    splitRaw (c :: l) = splitStep c (splitRaw l) := rfl

lemma pySplit_space_cons {c : Char} {l : List Char} (hs : isPySpace c = true) :
    pySplit (c :: l) = pySplit l := by
  unfold pySplit
  rw [splitRaw_cons]
  unfold splitStep
  rw [if_pos hs]
  simp [List.filter_cons]

lemma splitRaw_word_append {rest h0 : List Char} {t0 : List (List Char)}
    (hsr : splitRaw rest = h0 :: t0) :
    ∀ w : List Char, (∀ x ∈ w, isPySpace x = false) →
      splitRaw (w ++ rest) = (w ++ h0) :: t0 := by
  intro w
  induction w with
  | nil => intro _; simpa using hsr
  | cons c w ih =>
    intro hnw
    rw [List.cons_append, splitRaw_cons, ih (fun x hx => hnw x (List.mem_cons_of_mem c hx))]
    unfold splitStep
    rw [if_neg (by simp [hnw c (List.mem_cons_self c w)])]
    rfl

lemma pySplit_word_append {w rest : List Char} (hw : w ≠ [])
    (hnw : ∀ x ∈ w, isPySpace x = false)
    (hrest : rest = [] ∨ ∃ r0 r', rest = r0 :: r' ∧ isPySpace r0 = true) :
    pySplit (w ++ rest) = w :: pySplit rest := by
  have hwe : w.isEmpty = false := by
    cases w with
    | nil => exact absurd rfl hw
    | cons a b => rfl
  rcases hrest with rfl | ⟨r0, r', rfl, hr0⟩
  · have h1 := splitRaw_word_append (rfl : splitRaw ([] : List Char) = [] :: []) w hnw
    rw [List.append_nil] at h1
    rw [List.append_nil]
    unfold pySplit
    rw [h1]
    simp [List.filter_cons, hwe, splitRaw]
  · have hsr : splitRaw (r0 :: r') = [] :: splitRaw r' := by
      rw [splitRaw_cons]; unfold splitStep; rw [if_pos hr0]
    unfold pySplit
    rw [splitRaw_word_append hsr w hnw, List.append_nil, hsr]
    simp [List.filter_cons, hwe]

/-! The scan on word/whitespace strings processes the input word by word. -/

lemma reSubGo_space_cons {pat : SuffixPat} {p : Option Char} {c : Char} {t : List Char}
    (hne : pat.lits ≠ []) (hword : ∀ x ∈ pat.lits, isWordChar x = true)
    (hs : isPySpace c = true) :
    reSubGo pat p (c :: t) = c :: reSubGo pat (some c) t := by
  have hmp : matchPat pat p (c :: t) = none := by
    apply matchPat_none_not_tok hword
    rw [List.takeWhile_cons_of_neg (by simp [space_not_word hs])]
    exact fun hx => hne hx.symm
  simp only [reSubGo_cons, hmp]

lemma word_run_decomp {c : Char} {t : List Char} (hc : isWordChar c = true)
    (hws : ∀ x ∈ c :: t, (isWordChar x || isPySpace x) = true) :
    ∃ w rest, c :: t = w ++ rest ∧ w = c :: t.takeWhile isWordChar ∧
      (∀ x ∈ w, isWordChar x = true) ∧ (c :: t).takeWhile isWordChar = w ∧
      headIsWord rest = false ∧ rest.head? ≠ some '.' ∧
      (rest = [] ∨ ∃ r0 r', rest = r0 :: r' ∧ isPySpace r0 = true) := by
  refine ⟨(c :: t).takeWhile isWordChar, (c :: t).dropWhile isWordChar,
    (List.takeWhile_append_dropWhile isWordChar (c :: t)).symm, List.takeWhile_cons_of_pos hc,
    fun x hx => List.mem_takeWhile_imp hx, rfl, ?_, ?_, ?_⟩
  · cases hr : (c :: t).dropWhile isWordChar with
    | nil => rfl
    | cons r0 r' =>
      rw [headIsWord_cons]
      exact dropWhile_head_not hr
  · cases hr : (c :: t).dropWhile isWordChar with
    | nil => simp
    | cons r0 r' =>
      have hr0w : isWordChar r0 = false := dropWhile_head_not hr
      have hr0mem : r0 ∈ c :: t := by
        have hm : r0 ∈ (c :: t).dropWhile isWordChar := by
          rw [hr]; exact List.mem_cons_self _ _
        exact (List.dropWhile_sublist isWordChar).subset hm
      have hr0s : isPySpace r0 = true := by
        have h2 := hws r0 hr0mem
        rw [hr0w] at h2
        simpa using h2
      intro hhd
      simp only [List.head?_cons, Option.some.injEq] at hhd
      rw [hhd] at hr0s
      exact absurd hr0s (by decide)
  · cases hr : (c :: t).dropWhile isWordChar with
    | nil => exact Or.inl rfl
    | cons r0 r' =>
      have hr0w : isWordChar r0 = false := dropWhile_head_not hr
      have hr0mem : r0 ∈ c :: t := by
        have hm : r0 ∈ (c :: t).dropWhile isWordChar := by
          rw [hr]; exact List.mem_cons_self _ _
        exact (List.dropWhile_sublist isWordChar).subset hm
      have hr0s : isPySpace r0 = true := by
        have h2 := hws r0 hr0mem
        rw [hr0w] at h2
        simpa using h2
      exact Or.inr ⟨r0, r', rfl, hr0s⟩

lemma scan_filter {pat : SuffixPat} (hne : pat.lits ≠ [])
    (hword : ∀ x ∈ pat.lits, isWordChar x = true) :
    ∀ (n : Nat) (l : List Char) (p : Option Char), l.length ≤ n →
      (∀ x ∈ l, (isWordChar x || isPySpace x) = true) →
      (prevIsWord p = false ∨ headIsWord l = false) →
      pySplit (reSubGo pat p l) = (pySplit l).filter (fun w => !(w == pat.lits)) := by
  intro n
  induction n with
  | zero =>
    intro l p h1 _ _
    have hl : l = [] := List.length_eq_zero.mp (Nat.le_zero.mp h1)
    subst hl
    rfl
  | succ n ih =>
    intro l p hlen hws hstate
    cases l with
    | nil => rfl
    | cons c t =>
      by_cases hh : headIsWord (c :: t) = true
      · have hp : prevIsWord p = false := by
          rcases hstate with h | h
          · exact h
          · rw [hh] at h; cases h
        have hc : isWordChar c = true := hh
        obtain ⟨w, rest, hsplit, hw_cons, hw_word, htw_eq, hrest_head, hrest_nodot,
          hrest_space⟩ := word_run_decomp hc hws
        have hw_ne : w ≠ [] := by rw [hw_cons]; simp
        have hw_nospace : ∀ x ∈ w, isPySpace x = false :=
          fun x hx => word_not_space (hw_word x hx)
        have hlen_eq : t.length + 1 = w.length + rest.length := by
          have := congrArg List.length hsplit
          simpa [List.length_append] using this
        have hw_pos : 0 < w.length := by rw [hw_cons]; simp
        have hrest_len : rest.length ≤ n := by
          simp only [List.length_cons] at hlen
          omega
        have hws_rest : ∀ x ∈ rest, (isWordChar x || isPySpace x) = true := by
          intro x hx
          exact hws x (by rw [hsplit]; exact List.mem_append_right _ hx)
        by_cases htok : w = pat.lits
        · have hl_eq : c :: t = pat.lits ++ rest := by rw [← htok]; exact hsplit
          have hmp : matchPat pat p (c :: t) = some (pat.lits.getLastD ' ', rest) := by
            rw [hl_eq]
            exact matchPat_at_tok hne hword hp hrest_nodot hrest_head
          simp only [reSubGo_cons, hmp]
          rw [ih rest (some (pat.lits.getLastD ' ')) hrest_len hws_rest (Or.inr hrest_head)]
          rw [hsplit, pySplit_word_append hw_ne hw_nospace hrest_space]
          rw [List.filter_cons, htok]
          simp
        · have hmp : matchPat pat p (c :: t) = none :=
            matchPat_none_not_tok hword (by rw [htw_eq]; exact htok)
          simp only [reSubGo_cons, hmp]
          rw [hsplit, pySplit_word_append hw_ne hw_nospace hrest_space]
          obtain ⟨w', hw'⟩ : ∃ w', w = c :: w' := ⟨t.takeWhile isWordChar, hw_cons⟩
          have ht_eq : t = w' ++ rest := by
            have h2 : c :: t = c :: (w' ++ rest) := by
              rw [hsplit, hw', List.cons_append]
            injection h2
          have hX : reSubGo pat (some c) rest = [] ∨
              ∃ r0 r', reSubGo pat (some c) rest = r0 :: r' ∧ isPySpace r0 = true := by
            rcases hrest_space with rfl | ⟨r0, r', hr, hr0⟩
            · exact Or.inl reSubGo_nil
            · right
              rw [hr, reSubGo_space_cons hne hword hr0]
              exact ⟨r0, _, rfl, hr0⟩
          obtain ⟨q, hq, heq⟩ :=
            walk_word w' (fun x hx => hw_word x (by rw [hw']; exact List.mem_cons_of_mem c hx))
              (some c) rest hc
          have hX' : reSubGo pat q rest = [] ∨
              ∃ r0 r', reSubGo pat q rest = r0 :: r' ∧ isPySpace r0 = true := by
            rcases hrest_space with rfl | ⟨r0, r', hr, hr0⟩
            · exact Or.inl reSubGo_nil
            · right
              rw [hr, reSubGo_space_cons hne hword hr0]
              exact ⟨r0, _, rfl, hr0⟩
          rw [ht_eq, heq, ← List.cons_append, ← hw']
          rw [pySplit_word_append hw_ne hw_nospace hX']
          rw [ih rest q hrest_len hws_rest (Or.inr hrest_head)]
          rw [List.filter_cons]
          simp [htok]
      · have hcs : isPySpace c = true := by
          have h2 := hws c (List.mem_cons_self c t)
          rw [headIsWord_cons] at hh
          rw [Bool.eq_false_iff.mpr hh] at h2
          simpa using h2
        rw [reSubGo_space_cons hne hword hcs]
        rw [pySplit_space_cons hcs, pySplit_space_cons hcs]
        refine ih t (some c) (by simpa using Nat.le_of_succ_le_succ (by simpa using hlen))
          (fun x hx => hws x (List.mem_cons_of_mem c hx)) (Or.inl ?_)
        rw [prevIsWord_some]
        exact space_not_word hcs

lemma scan_id {pat : SuffixPat} (hne : pat.lits ≠ [])
    (hword : ∀ x ∈ pat.lits, isWordChar x = true) :
    ∀ (n : Nat) (l : List Char) (p : Option Char), l.length ≤ n →
      (∀ x ∈ l, (isWordChar x || isPySpace x) = true) →
      (prevIsWord p = false ∨ headIsWord l = false) →
      pat.lits ∉ pySplit l → reSubGo pat p l = l := by
  intro n
  induction n with
  | zero =>
    intro l p h1 _ _ _
    have hl : l = [] := List.length_eq_zero.mp (Nat.le_zero.mp h1)
    subst hl
    rfl
  | succ n ih =>
    intro l p hlen hws hstate hmem
    cases l with
    | nil => rfl
    | cons c t =>
      by_cases hh : headIsWord (c :: t) = true
      · have hp : prevIsWord p = false := by
          rcases hstate with h | h
          · exact h
          · rw [hh] at h; cases h
        have hc : isWordChar c = true := hh
        obtain ⟨w, rest, hsplit, hw_cons, hw_word, htw_eq, hrest_head, hrest_nodot,
          hrest_space⟩ := word_run_decomp hc hws
        have hw_ne : w ≠ [] := by rw [hw_cons]; simp
        have hw_nospace : ∀ x ∈ w, isPySpace x = false :=
          fun x hx => word_not_space (hw_word x hx)
        have hlen_eq : t.length + 1 = w.length + rest.length := by
          have := congrArg List.length hsplit
          simpa [List.length_append] using this
        have hw_pos : 0 < w.length := by rw [hw_cons]; simp
        have hrest_len : rest.length ≤ n := by
          simp only [List.length_cons] at hlen
          omega
        have hws_rest : ∀ x ∈ rest, (isWordChar x || isPySpace x) = true := by
          intro x hx
          exact hws x (by rw [hsplit]; exact List.mem_append_right _ hx)
        have hsplit_words : pySplit (c :: t) = w :: pySplit rest := by
          rw [hsplit]
          exact pySplit_word_append hw_ne hw_nospace hrest_space
        by_cases htok : w = pat.lits
        · exfalso
          apply hmem
          rw [hsplit_words, ← htok]
          exact List.mem_cons_self _ _
        · have hmp : matchPat pat p (c :: t) = none :=
            matchPat_none_not_tok hword (by rw [htw_eq]; exact htok)
          simp only [reSubGo_cons, hmp]
          obtain ⟨w', hw'⟩ : ∃ w', w = c :: w' := ⟨t.takeWhile isWordChar, hw_cons⟩
          have ht_eq : t = w' ++ rest := by
            have h2 : c :: t = c :: (w' ++ rest) := by
              rw [hsplit, hw', List.cons_append]
            injection h2
          obtain ⟨q, hq, heq⟩ :=
            walk_word w' (fun x hx => hw_word x (by rw [hw']; exact List.mem_cons_of_mem c hx))
              (some c) rest hc
          have hmem_rest : pat.lits ∉ pySplit rest := by
            intro hx
            exact hmem (by rw [hsplit_words]; exact List.mem_cons_of_mem _ hx)
          rw [ht_eq, heq, ih rest q hrest_len hws_rest (Or.inr hrest_head) hmem_rest]
      · have hcs : isPySpace c = true := by
          have h2 := hws c (List.mem_cons_self c t)
          rw [headIsWord_cons] at hh
          rw [Bool.eq_false_iff.mpr hh] at h2
          simpa using h2
        rw [reSubGo_space_cons hne hword hcs]
        have hmem_t : pat.lits ∉ pySplit t := by
          rw [← pySplit_space_cons hcs]
          exact hmem
        rw [ih t (some c) (by simpa using Nat.le_of_succ_le_succ (by simpa using hlen))
          (fun x hx => hws x (List.mem_cons_of_mem c hx))
          (Or.inl (by rw [prevIsWord_some]; exact space_not_word hcs)) hmem_t]

lemma reSubAux_id_dotted {pat : SuffixPat} (hdot : '.' ∈ pat.lits) :
    ∀ (fuel : Nat) (p : Option Char) (l : List Char), '.' ∉ l → reSubAux pat fuel p l = l := by
  intro fuel
  induction fuel with
  | zero => intro p l _; rfl
  | succ n ih =>
    intro p l hnd
    cases l with
    | nil => rfl
    | cons c t =>
      have hmp : matchPat pat p (c :: t) = none := by
        cases hm : matchPat pat p (c :: t) with
        | none => rfl
        | some pr =>
          obtain ⟨lc, rest⟩ := pr
          exfalso
          rcases matchPat_some hm with ⟨-, -, hl | hl⟩
          · exact hnd (by rw [hl]; exact List.mem_append_left _ hdot)
          · exact hnd (by rw [hl]; exact List.mem_append_left _ hdot)
      simp only [reSubAux, hmp]
      rw [ih (some c) t (fun h => hnd (List.mem_cons_of_mem c h))]

lemma suffixPatterns_good :
    ∀ pat ∈ suffixPatterns,
      (pat.lits ≠ [] ∧ ∀ x ∈ pat.lits, isWordChar x = true) ∨ '.' ∈ pat.lits := by
  decide

lemma splitRaw_chars :
    ∀ (l : List Char) (w : List Char), w ∈ splitRaw l →
      ∀ x ∈ w, x ∈ l ∧ isPySpace x = false := by
  intro l
  induction l with
  | nil =>
    intro w hw x hx
    simp only [splitRaw, List.foldr_nil, List.mem_singleton] at hw
    subst hw
    cases hx
  | cons c t ih =>
    intro w hw x hx
    rw [splitRaw_cons] at hw
    unfold splitStep at hw
    by_cases hs : isPySpace c = true
    · rw [if_pos hs] at hw
      rcases List.mem_cons.mp hw with rfl | hw2
      · cases hx
      · obtain ⟨h1, h2⟩ := ih w hw2 x hx
        exact ⟨List.mem_cons_of_mem c h1, h2⟩
    · rw [if_neg hs] at hw
      have hsf : isPySpace c = false := Bool.eq_false_iff.mpr hs
      cases hraw : splitRaw t with
      | nil =>
        rw [hraw] at hw
        simp only [List.mem_singleton] at hw
        subst hw
        rcases List.mem_singleton.mp hx with rfl
        exact ⟨List.mem_cons_self _ _, hsf⟩
      | cons w0 rest =>
        rw [hraw] at hw
        rcases List.mem_cons.mp hw with rfl | hw2
        · rcases List.mem_cons.mp hx with rfl | hx2
          · exact ⟨List.mem_cons_self _ _, hsf⟩
          · obtain ⟨h1, h2⟩ := ih w0 (by rw [hraw]; exact List.mem_cons_self _ _) x hx2
            exact ⟨List.mem_cons_of_mem c h1, h2⟩
        · obtain ⟨h1, h2⟩ := ih w (by rw [hraw]; exact List.mem_cons_of_mem w0 hw2) x hx
          exact ⟨List.mem_cons_of_mem c h1, h2⟩

lemma pySplit_chars {l w : List Char} (hw : w ∈ pySplit l) :
    ∀ x ∈ w, x ∈ l ∧ isPySpace x = false :=
  splitRaw_chars l w (List.mem_of_mem_filter hw)

lemma pySplit_word_ne_nil {l w : List Char} (hw : w ∈ pySplit l) : w ≠ [] := by
  have := List.of_mem_filter hw
  intro hx
  subst hx
  simp at this

lemma foldSubs_filter :
    ∀ (pats : List SuffixPat) (l : List Char),
      (∀ pat ∈ pats, (pat.lits ≠ [] ∧ ∀ x ∈ pat.lits, isWordChar x = true) ∨ '.' ∈ pat.lits) →
      (∀ x ∈ l, (isWordChar x || isPySpace x) = true) →
      (∀ x ∈ pats.foldl (fun s pat => reSub pat s) l, x ∈ l) ∧
        pySplit (pats.foldl (fun s pat => reSub pat s) l) =
          (pySplit l).filter (fun w => pats.all (fun pat => !(w == pat.lits))) := by
  intro pats
  induction pats with
  | nil =>
    intro l _ _
    refine ⟨fun x hx => hx, ?_⟩
    simp
  | cons pat pats ih =>
    intro l hgood hws
    rw [List.foldl_cons]
    rcases hgood pat (List.mem_cons_self _ _) with ⟨hne, hword⟩ | hdot
    · have hstep : pySplit (reSub pat l) = (pySplit l).filter (fun w => !(w == pat.lits)) := by
        rw [reSub_eq_go]
        exact scan_filter hne hword l.length l none (Nat.le_refl _) hws (Or.inl rfl)
      have hsub : ∀ x ∈ reSub pat l, x ∈ l :=
        fun x hx => (reSubGo_sublist pat l.length none l).subset hx
      have hws1 : ∀ x ∈ reSub pat l, (isWordChar x || isPySpace x) = true :=
        fun x hx => hws x (hsub x hx)
      obtain ⟨ihsub, ihsplit⟩ :=
        ih (reSub pat l) (fun q hq => hgood q (List.mem_cons_of_mem pat hq)) hws1
      refine ⟨fun x hx => hsub x (ihsub x hx), ?_⟩
      rw [ihsplit, hstep, List.filter_filter]
      refine List.filter_congr ?_
      intro w _
      simp [Bool.and_comm]
    · have hnd : '.' ∉ l := by
        intro hx
        have h2 := hws '.' hx
        revert h2
        decide
      have hstep : reSub pat l = l := reSubAux_id_dotted hdot l.length none l hnd
      rw [hstep]
      obtain ⟨ihsub, ihsplit⟩ :=
        ih l (fun q hq => hgood q (List.mem_cons_of_mem pat hq)) hws
      refine ⟨ihsub, ?_⟩
      rw [ihsplit]
      refine List.filter_congr ?_
      intro w hwmem
      have hwchars := pySplit_chars hwmem
      have hwne : (w == pat.lits) = false := by
        refine beq_eq_false_iff_ne.mpr ?_
        intro hx
        subst hx
        have h2 := hws '.' ((hwchars '.' hdot).1)
        revert h2
        decide
      simp [hwne]

lemma foldSubs_id :
    ∀ (pats : List SuffixPat) (l : List Char),
      (∀ pat ∈ pats, (pat.lits ≠ [] ∧ ∀ x ∈ pat.lits, isWordChar x = true) ∨ '.' ∈ pat.lits) →
      (∀ x ∈ l, (isWordChar x || isPySpace x) = true) →
      (∀ pat ∈ pats, pat.lits ∉ pySplit l) →
      pats.foldl (fun s pat => reSub pat s) l = l := by
  intro pats
  induction pats with
  | nil => intro l _ _ _; rfl
  | cons pat pats ih =>
    intro l hgood hws hmem
    rw [List.foldl_cons]
    have hstep : reSub pat l = l := by
      rcases hgood pat (List.mem_cons_self _ _) with ⟨hne, hword⟩ | hdot
      · rw [reSub_eq_go]
        exact scan_id hne hword l.length l none (Nat.le_refl _) hws (Or.inl rfl)
          (hmem pat (List.mem_cons_self _ _))
      · have hnd : '.' ∉ l := by
          intro hx
          have h2 := hws '.' hx
          revert h2
          decide
        exact reSubAux_id_dotted hdot l.length none l hnd
    rw [hstep]
    exact ih l (fun q hq => hgood q (List.mem_cons_of_mem pat hq)) hws
      (fun q hq => hmem q (List.mem_cons_of_mem pat hq))

/-! `joinWords`, `pySplit` and `pyStrip` on lists of normalized words. -/

lemma map_eq_self_of {f : Char → Char} :
    ∀ {l : List Char}, (∀ x ∈ l, f x = x) → l.map f = l := by
  intro l
  induction l with
  | nil => intro _; rfl
  | cons c t ih =>
    intro h
    rw [List.map_cons, h c (List.mem_cons_self c t), ih (fun x hx => h x (List.mem_cons_of_mem c hx))]

lemma joinWords_chars :
    ∀ (ws : List (List Char)) (x : Char), x ∈ joinWords ws →
      (∃ w ∈ ws, x ∈ w) ∨ x = ' ' := by
  intro ws
  induction ws with
  | nil => intro x hx; cases hx
  | cons w ws ih =>
    intro x hx
    cases ws with
    | nil => exact Or.inl ⟨w, List.mem_singleton_self w, hx⟩
    | cons v ws2 =>
      rcases List.mem_append.mp hx with hx1 | hx2
      · exact Or.inl ⟨w, List.mem_cons_self _ _, hx1⟩
      · rcases List.mem_cons.mp hx2 with rfl | hx3
        · exact Or.inr rfl
        · rcases ih x hx3 with ⟨w2, hw2, hxw2⟩ | hsp
          · exact Or.inl ⟨w2, List.mem_cons_of_mem w hw2, hxw2⟩
          · exact Or.inr hsp

lemma pySplit_joinWords :
    ∀ ws : List (List Char),
      (∀ w ∈ ws, w ≠ [] ∧ ∀ x ∈ w, isPySpace x = false) →
      pySplit (joinWords ws) = ws := by
  intro ws
  induction ws with
  | nil => intro _; rfl
  | cons w ws ih =>
    intro h
    cases ws with
    | nil =>
      show pySplit w = [w]
      have h2 : pySplit (w ++ ([] : List Char)) = w :: pySplit [] :=
        pySplit_word_append (h w (List.mem_singleton_self w)).1
          (h w (List.mem_singleton_self w)).2 (Or.inl rfl)
      rw [List.append_nil] at h2
      rw [h2]
      rfl
    | cons v ws2 =>
      show pySplit (w ++ ' ' :: joinWords (v :: ws2)) = w :: v :: ws2
      rw [pySplit_word_append (h w (List.mem_cons_self _ _)).1
        (h w (List.mem_cons_self _ _)).2 (Or.inr ⟨' ', joinWords (v :: ws2), rfl, by decide⟩)]
      rw [pySplit_space_cons (by decide)]
      rw [ih (fun u hu => h u (List.mem_cons_of_mem w hu))]

lemma joinWords_ne_nil {ws : List (List Char)} (hne : ws ≠ [])
    (hw : ∀ w ∈ ws, w ≠ []) : joinWords ws ≠ [] := by
  cases ws with
  | nil => exact absurd rfl hne
  | cons w ws2 =>
    cases ws2 with
    | nil => exact hw w (List.mem_singleton_self w)
    | cons v ws3 => simp [joinWords]

lemma exists_getLast?_mem {l : List Char} (h : l ≠ []) :
    ∃ c, l.getLast? = some c ∧ c ∈ l := by
  induction l with
  | nil => exact absurd rfl h
  | cons c t ih =>
    cases t with
    | nil => exact ⟨c, rfl, List.mem_singleton_self c⟩
    | cons d t2 =>
      obtain ⟨x, h1, h2⟩ := ih (by simp)
      exact ⟨x, by rw [List.getLast?_cons_cons]; exact h1, List.mem_cons_of_mem c h2⟩

lemma getLast?_joinWords :
    ∀ ws : List (List Char), ws ≠ [] → (∀ w ∈ ws, w ≠ []) →
      ∃ c w, (joinWords ws).getLast? = some c ∧ w ∈ ws ∧ c ∈ w := by
  intro ws
  induction ws with
  | nil => intro h _; exact absurd rfl h
  | cons w ws2 ih =>
    intro _ hw
    cases ws2 with
    | nil =>
      obtain ⟨c, h1, h2⟩ := exists_getLast?_mem (hw w (List.mem_singleton_self w))
      exact ⟨c, w, h1, List.mem_singleton_self w, h2⟩
    | cons v ws3 =>
      obtain ⟨c, u, h1, h2, h3⟩ := ih (by simp) (fun x hx => hw x (List.mem_cons_of_mem w hx))
      refine ⟨c, u, ?_, List.mem_cons_of_mem w h2, h3⟩
      show (w ++ ' ' :: joinWords (v :: ws3)).getLast? = some c
      have hjoin_ne : joinWords (v :: ws3) ≠ [] :=
        joinWords_ne_nil (by simp) (fun x hx => hw x (List.mem_cons_of_mem w hx))
      cases hj : joinWords (v :: ws3) with
      | nil => exact absurd hj hjoin_ne
      | cons j0 jt =>
        rw [hj] at h1
        rw [List.getLast?_append, List.getLast?_cons_cons, h1]
        rfl

lemma pyStrip_joinWords (ws : List (List Char))
    (h : ∀ w ∈ ws, w ≠ [] ∧ ∀ x ∈ w, isPySpace x = false) :
    pyStrip (joinWords ws) = joinWords ws := by
  cases ws with
  | nil => rfl
  | cons w ws2 =>
    obtain ⟨c, w', hw'⟩ : ∃ c w', w = c :: w' := by
      cases w with
      | nil => exact absurd rfl (h [] (List.mem_cons_self _ _)).1
      | cons c w' => exact ⟨c, w', rfl⟩
    have hc_nospace : isPySpace c = false :=
      (h w (List.mem_cons_self w ws2)).2 c (by rw [hw']; exact List.mem_cons_self c w')
    have hhead : ∃ X, joinWords (w :: ws2) = c :: X := by
      cases ws2 with
      | nil => exact ⟨w', by rw [hw']; rfl⟩
      | cons v ws3 =>
        refine ⟨w' ++ ' ' :: joinWords (v :: ws3), ?_⟩
        show w ++ ' ' :: joinWords (v :: ws3) = _
        rw [hw', List.cons_append]
    obtain ⟨X, hX⟩ := hhead
    have hdw1 : (joinWords (w :: ws2)).dropWhile isPySpace = joinWords (w :: ws2) := by
      rw [hX]
      exact List.dropWhile_cons_of_neg (by simp [hc_nospace])
    unfold pyStrip
    rw [hdw1]
    obtain ⟨cl, wl, hgl, hwl, hclw⟩ :=
      getLast?_joinWords (w :: ws2) (by simp) (fun u hu => (h u hu).1)
    have hcl_nospace : isPySpace cl = false := (h wl hwl).2 cl hclw
    have hrev_head : (joinWords (w :: ws2)).reverse.head? = some cl := by
      rw [List.head?_reverse]
      exact hgl
    cases hr : (joinWords (w :: ws2)).reverse with
    | nil =>
      have h0 : joinWords (w :: ws2) = [] := by
        have h2 := congrArg List.reverse hr
        simpa using h2
      rw [h0]
      rfl
    | cons r0 rr =>
      have hr0 : r0 = cl := by
        rw [hr] at hrev_head
        simpa using hrev_head
      rw [List.dropWhile_cons_of_neg (by simp [hr0, hcl_nospace]), ← hr,
        List.reverse_reverse]

/-! Idempotence of `normalizeName` on punctuation-free strings. -/

lemma normalized_fixpoint (ws : List (List Char))
    (P1 : ∀ w ∈ ws, w ≠ [])
    (P2 : ∀ w ∈ ws, ∀ x ∈ w, isWordChar x = true ∧ pyLower x = x)
    (P3 : ∀ w ∈ ws, keepWord w = true) :
    normalizeName (String.mk (joinWords ws)) = String.mk (joinWords ws) := by
  have hcond : ∀ w ∈ ws, w ≠ [] ∧ ∀ x ∈ w, isPySpace x = false :=
    fun w hw => ⟨P1 w hw, fun x hx => word_not_space (P2 w hw x hx).1⟩
  have hdata : (String.mk (joinWords ws)).data = joinWords ws := rfl
  have hlower : (joinWords ws).map pyLower = joinWords ws := by
    apply map_eq_self_of
    intro x hx
    rcases joinWords_chars ws x hx with ⟨w, hw, hxw⟩ | rfl
    · exact (P2 w hw x hxw).2
    · decide
  have hws_chars : ∀ x ∈ joinWords ws, (isWordChar x || isPySpace x) = true := by
    intro x hx
    rcases joinWords_chars ws x hx with ⟨w, hw, hxw⟩ | rfl
    · simp [(P2 w hw x hxw).1]
    · decide
  have hsplit : pySplit (joinWords ws) = ws := pySplit_joinWords ws hcond
  have hnomem : ∀ pat ∈ suffixPatterns, pat.lits ∉ pySplit (joinWords ws) := by
    intro pat hpat hmem
    rw [hsplit] at hmem
    have hk := P3 pat.lits hmem
    unfold keepWord at hk
    rw [List.all_eq_true] at hk
    have h2 := hk pat hpat
    simp at h2
  have hsubs : removeSuffixes (joinWords ws) = joinWords ws :=
    foldSubs_id suffixPatterns (joinWords ws) suffixPatterns_good hws_chars hnomem
  unfold normalizeName
  rw [hdata, hlower]
  show String.mk (pyStrip (joinWords (pySplit (removePunct (removeSuffixes (joinWords ws)))))) = _
  rw [hsubs,
    show removePunct (joinWords ws) = joinWords ws from List.filter_eq_self.mpr hws_chars,
    hsplit, pyStrip_joinWords ws hcond]

lemma normalizeName_punct_free (s : String)
    (h : ∀ x ∈ s.data, (isWordChar x || isPySpace x) = true) :
    ∃ ws, normalizeName s = String.mk (joinWords ws) ∧
      (∀ w ∈ ws, w ≠ []) ∧
      (∀ w ∈ ws, ∀ x ∈ w, isWordChar x = true ∧ pyLower x = x) ∧
      (∀ w ∈ ws, keepWord w = true) := by
  have hLws : ∀ x ∈ s.data.map pyLower, (isWordChar x || isPySpace x) = true := by
    intro x hx
    rw [List.mem_map] at hx
    obtain ⟨x0, hx0, rfl⟩ := hx
    rw [wordChar_pyLower, pySpace_pyLower]
    exact h x0 hx0
  obtain ⟨hsub, hsplit⟩ := foldSubs_filter suffixPatterns (s.data.map pyLower)
    suffixPatterns_good hLws
  have hkw : (fun w => suffixPatterns.all fun pat => !(w == pat.lits)) = keepWord := rfl
  rw [hkw] at hsplit
  have hsplit2 : pySplit (removeSuffixes (s.data.map pyLower)) =
      (pySplit (s.data.map pyLower)).filter keepWord := hsplit
  refine ⟨(pySplit (s.data.map pyLower)).filter keepWord, ?_, ?_, ?_, ?_⟩
  · have hwsr : ∀ x ∈ removeSuffixes (s.data.map pyLower),
        (isWordChar x || isPySpace x) = true :=
      fun x hx => hLws x (hsub x hx)
    have hcond : ∀ w ∈ (pySplit (s.data.map pyLower)).filter keepWord,
        w ≠ [] ∧ ∀ x ∈ w, isPySpace x = false := by
      intro w hw
      have hw1 : w ∈ pySplit (s.data.map pyLower) := List.mem_of_mem_filter hw
      exact ⟨pySplit_word_ne_nil hw1, fun x hx => (pySplit_chars hw1 x hx).2⟩
    unfold normalizeName
    rw [show removePunct (removeSuffixes (s.data.map pyLower)) =
        removeSuffixes (s.data.map pyLower) from List.filter_eq_self.mpr hwsr,
      hsplit2, pyStrip_joinWords _ hcond]
  · intro w hw
    exact pySplit_word_ne_nil (List.mem_of_mem_filter hw)
  · intro w hw x hx
    have hw1 : w ∈ pySplit (s.data.map pyLower) := List.mem_of_mem_filter hw
    obtain ⟨hxL, hxsp⟩ := pySplit_chars hw1 x hx
    have hxw : isWordChar x = true := by
      have h2 := hLws x hxL
      rw [hxsp] at h2
      simpa using h2
    refine ⟨hxw, ?_⟩
    rw [List.mem_map] at hxL
    obtain ⟨x0, -, rfl⟩ := hxL
    exact pyLower_idem x0
  · intro w hw
    exact List.of_mem_filter hw

/-- C2 (amended): normalization is idempotent on every punctuation-free string
(every character alphanumeric, underscore, or whitespace).  On general strings
idempotence fails (`c2_counterexample`): removing punctuation can fuse the
remaining characters into a fresh suffix token that a second pass strips. -/
theorem c2_normalize_idempotent_on_punct_free (s : String)
    (h : ∀ x ∈ s.data, (isWordChar x || isPySpace x) = true) :
    normalizeName (normalizeName s) = normalizeName s := by
  obtain ⟨ws, heq, P1, P2, P3⟩ := normalizeName_punct_free s h
  rw [heq]
  exact normalized_fixpoint ws P1 P2 P3

theorem c2_witness :
    (∀ x ∈ ("Google Inc" : String).data, (isWordChar x || isPySpace x) = true) ∧
      normalizeName (normalizeName "Google Inc") = normalizeName "Google Inc" :=
  ⟨by decide, c2_normalize_idempotent_on_punct_free "Google Inc" (by decide)⟩
